import Mathlib

/-!
Shallow embedding of the `CyclicList` engine from `musica/custom_types.py`,
together with theorems checking the natural-language specification of the
cyclic-sequence component against the code.

Configuration fields `limit` and `counts` are tri-state in the source
(the sentinel `_UNDEFINED`, an explicit `None`, or an `int`); they are
modelled by `Tri`.  Machine integers are modelled by `Int` with Python's
nonnegative-remainder `%` modelled by `Int.emod` (identical for positive
moduli).  Fallible operations (`__init__` validation, `copy`,
`custom_iter`, slicing, `index`) return `Except String`.  A Python
`for`/`zip`/`list()` over a `CyclicList` first calls `__iter__`, which is
`self.copy()`; this extra copy is modelled explicitly by `iterate`.
-/

namespace Musica

/-- Tri-state configuration value of `limit` / `counts`: the module-level
sentinel `_UNDEFINED`, an explicit Python `None`, or an integer. -/
inductive Tri where
  | unset : Tri
  | null : Tri
  | val : Int → Tri
deriving DecidableEq

/-- Python truthiness of a `limit`/`counts` value combined with the
`is not _UNDEFINED` test from `CyclicList.__init__` line 41: only a nonzero
integer passes (`None` and `0` are falsy, the sentinel is excluded). -/
def truthy : Tri → Bool
  | .val n => n != 0
  | _ => false

/-- State of a `CyclicList` instance: the immutable backing values plus the
configuration and the mutable cursor fields `_counter` / `_current_index`. -/
structure CyclicList (T : Type) where
  values : List T
  reverse : Bool
  limit : Tri
  counts : Tri
  counter : Int
  startIndex : Int
  currentIndex : Int
deriving DecidableEq

variable {T : Type}

/-- `CyclicList.__init__` (custom_types.py lines 16-51): rejects a
simultaneous truthy `limit` and `counts`, rejects empty values, and stores
`start_index or 0` into both `_start_index` and `_current_index`. -/
def construct (values : List T) (limit : Tri) (reverse : Bool) (counts : Tri)
    (startIndex : Option Int) : Except String (CyclicList T) :=
  if truthy limit && truthy counts then
    .error "Specifying both counts and limit is ambiguous."
  else if values.isEmpty then
    .error "Empty list."
  else
    .ok { values := values, reverse := reverse, limit := limit, counts := counts,
          counter := 0, startIndex := startIndex.getD 0,
          currentIndex := startIndex.getD 0 }

/-- Integer indexing branch of `CyclicList.__getitem__` (lines 150-155):
reverse-map then reduce modulo the length; `none` models the impossible
out-of-range access (and Python's `ZeroDivisionError` for empty values). -/
def cyclicGet (l : CyclicList T) (i : Int) : Option T :=
  let n : Int := l.values.length
  let j : Int := if l.reverse then (n - i - 1) % n else i % n
  l.values.get? j.toNat

/-- `CyclicList.copy` (lines 57-93).  `args` empty models no positional
arguments (`args or self._values`); `none` for a keyword models Python
`None`, which for `limit`/`counts` is falsy and therefore inherits the
source's value (`limit or self._limit`).  The effective start index is
remapped once when the post-override reverse flag is set, using the length
of the source's values, and the result is validated by the constructor. -/
def copy (l : CyclicList T) (args : List T) (startIndex : Option Int)
    (reverse : Option Bool) (limit : Option Int) (counts : Option Int) :
    Except String (CyclicList T) :=
  let si0 : Int := startIndex.getD l.startIndex
  let effRev : Bool := reverse.getD l.reverse
  let si1 : Int := if effRev then (l.values.length : Int) - si0 - 1 else si0
  construct (if args.isEmpty then l.values else args)
    (match limit with
     | some n => if n != 0 then .val n else l.limit
     | none => l.limit)
    effRev
    (match counts with
     | some n => if n != 0 then .val n else l.counts
     | none => l.counts)
    (some si1)

/-- `CyclicList.__iter__` (lines 95-97): a Python `for`/`zip`/`list()` over
an instance iterates over `self.copy()`. -/
def iterate (l : CyclicList T) : Except String (CyclicList T) :=
  copy l [] none none none none

/-- Effective bound resolution inside `CyclicList.__next__` (lines 168-178):
when both `_counts` and `_limit` are the sentinel, `_counts` defaults to 1;
an integer `_counts` then overrides `_limit` with `_counts * len(values)`. -/
def resolveLimit (l : CyclicList T) : Tri :=
  match l.counts, l.limit with
  | .unset, .unset => .val (1 * (l.values.length : Int))
  | .val c, _ => .val (c * (l.values.length : Int))
  | _, lim => lim

/-- One step of `CyclicList.__next__` (lines 163-184): `none` models
`StopIteration`.  On exhaustion `_counter` was already incremented and
`_current_index` is left unchanged; on a yield the cursor advances modulo
the length. -/
def step (l : CyclicList T) : Option T × CyclicList T :=
  if l.values.isEmpty then (none, l)
  else
    let counter' := l.counter + 1
    match resolveLimit l with
    | .val lim =>
      if counter' > lim then (none, { l with counter := counter' })
      else (cyclicGet l l.currentIndex,
            { l with counter := counter',
                     currentIndex := (l.currentIndex + 1) % (l.values.length : Int) })
    | _ => (cyclicGet l l.currentIndex,
            { l with counter := counter',
                     currentIndex := (l.currentIndex + 1) % (l.values.length : Int) })

/-- Collect the values yielded by repeated `__next__` calls, stopping at the
first `StopIteration`; `fuel` bounds the number of calls. -/
def drain : CyclicList T → Nat → List T
  | _, 0 => []
  | l, n + 1 =>
    match step l with
    | (none, _) => []
    | (some v, l') => v :: drain l' n

/-- Python `list(x)` over a `CyclicList`: iterate over `x.copy()` and
collect all yields (with enough fuel). -/
def listOf (l : CyclicList T) (fuel : Nat) : Except String (List T) :=
  match iterate l with
  | .error e => .error e
  | .ok it => .ok (drain it fuel)

/-- `CyclicList.index` (lines 158-161): `tuple.index`, the first position of
the value in the raw backing values, or `ValueError` (`NotFoundError` in the
spec's taxonomy) when absent. -/
def indexOf [DecidableEq T] (l : CyclicList T) (v : T) : Except String Nat :=
  if l.values.findIdx (fun x => decide (x = v)) < l.values.length then
    .ok (l.values.findIdx (fun x => decide (x = v)))
  else .error "NotFoundError: value is not in tuple"

/-- The canonical traversal materialized at the start of
`CyclicList.custom_iter` (lines 218-219): `self.copy(limit=None, counts=None)`
(falsy overrides, hence the source's bounds and reverse flag are inherited and
the start index is remapped when reverse is in effect), then
`zip(_inf_iter, self._values)`, which iterates over `_inf_iter.copy()` and
takes at most `len(self._values)` items. -/
def canonicalRotation (l : CyclicList T) : Except String (List T) :=
  match copy l [] none none none none with
  | .error e => .error e
  | .ok inf =>
    match iterate inf with
    | .error e => .error e
    | .ok it => .ok (drain it l.values.length)

/-- Interval walk of `CyclicList.custom_iter` (lines 229-232): the running
index advances by each hop modulo `len(self._values)` (the source length),
and indexes into the materialized rotation, where an out-of-range position
is Python's `IndexError`. -/
def walkAux (R : List T) (n : Int) : List Int → Int → Except String (List T)
  | [], _ => .ok []
  | h :: rest, idx =>
    let idx' := (idx + h) % n
    match R.get? idx'.toNat with
    | none => .error "IndexError: list index out of range"
    | some v =>
      match walkAux R n rest idx' with
      | .error e => .error e
      | .ok tail => .ok (v :: tail)

/-- `CyclicList.custom_iter` (lines 186-233): materialize the canonical
rotation, reject simultaneous `intervals` and `step`, apply the step filter
(`i % step == 0`) or the interval walk (prefixed by the rotation's first
element), and build the result via `self.copy(*values, start_index=...,
counts=..., limit=...)`. -/
def custom_iter (l : CyclicList T) (intervals : Option (List Int))
    (stepArg : Option Int) (startIndex : Option Int) (counts : Option Int)
    (limit : Option Int) : Except String (CyclicList T) :=
  match canonicalRotation l with
  | .error e => .error e
  | .ok R =>
    if intervals.isSome && stepArg.isSome then
      .error "Specifying both intervals and step is ambiguous."
    else
      let v1 : List T :=
        match stepArg with
        | some s =>
          if s != 0 then (R.enum.filter (fun p => (p.1 : Int) % s == 0)).map Prod.snd
          else R
        | none => R
      let v2 : Except String (List T) :=
        match intervals with
        | some ivs =>
          match R.get? 0 with
          | none => .error "IndexError: list index out of range"
          | some r0 =>
            match walkAux R (l.values.length : Int) ivs 0 with
            | .error e => .error e
            | .ok tail => .ok (r0 :: tail)
        | none => .ok v1
      match v2 with
      | .error e => .error e
      | .ok vs => copy l vs startIndex none limit counts

/-- Slicing branch of `CyclicList.__getitem__` (lines 129-148): compute the
adjusted start (`_start_index + start` when `start` is truthy), the bound
(`len + stop` for negative `stop`, `stop % len` for positive `stop`, `len`
when `stop` is `0` or omitted), drain `self.copy(start_index=..., limit=...)`
through its `__iter__` copy, and build a fresh default-configured instance
over the drained values.  An unbounded comprehension (possible only when the
effective limit resolves to no integer) is a nonterminating Python loop,
modelled as an error. -/
def sliceOp (l : CyclicList T) (start stop : Option Int) :
    Except String (CyclicList T) :=
  let a : Int :=
    match start with
    | some s => if s != 0 then l.startIndex + s else l.startIndex
    | none => l.startIndex
  let b : Int :=
    match stop with
    | some st =>
      if st != 0 then
        (if st < 0 then (l.values.length : Int) + st
         else st % (l.values.length : Int))
      else (l.values.length : Int)
    | none => (l.values.length : Int)
  match copy l [] (some a) none (some b) none with
  | .error e => .error e
  | .ok c =>
    match iterate c with
    | .error e => .error e
    | .ok d =>
      match resolveLimit d with
      | .val lim => construct (drain d lim.toNat) .unset false .unset none
      | _ => .error "nonterminating list comprehension"

/-- Whether an `Except` is an error. -/
def isErr : Except String α → Bool
  | .error _ => true
  | .ok _ => false

/-- Expected cyclic read: `m` elements of `S` starting at position `i`,
wrapping modulo the length. -/
def cycTake [Inhabited T] (S : List T) : Nat → Nat → List T
  | _, 0 => []
  | i, m + 1 => S.getD i default :: cycTake S ((i + 1) % S.length) m

/-- The canonical rotation as the specification describes it (section 4.4):
one non-reversed, non-limited traversal of the source starting at its own
`startIndex`, taking exactly `len(values)` items. -/
def specRotation [Inhabited T] (l : CyclicList T) : List T :=
  (List.range l.values.length).map
    (fun k : Nat =>
      l.values.getD (((l.startIndex + (k : Int)) % (l.values.length : Int)).toNat) default)

/-! ## Helper lemmas -/

lemma cycTake_length [Inhabited T] (S : List T) :
    ∀ (m i : Nat), (cycTake S i m).length = m := by
  intro m
  induction m with
  | zero => intro i; rfl
  | succ m ih => intro i; simp [cycTake, ih]

lemma get?_eq_some_getD [Inhabited T] (S : List T) (i : Nat) (h : i < S.length) :
    S.get? i = some (S.getD i default) := by
  rw [List.get?_eq_getElem?, List.getElem?_eq_getElem h, List.getD_eq_getElem S default h]

lemma emod_toNat_lt (j : Int) (n : Nat) (hn : 0 < n) : (j % (n : Int)).toNat < n := by
  have h1 : 0 ≤ j % (n : Int) := Int.emod_nonneg j (by exact_mod_cast hn.ne')
  have h2 : j % (n : Int) < (n : Int) := Int.emod_lt_of_pos j (by exact_mod_cast hn)
  omega

lemma mod_step (n : Nat) (hn : 0 < n) (j : Int) :
    (((j % (n : Int)).toNat + 1) % n : Nat) = ((j + 1) % (n : Int)).toNat := by
  have hne : (n : Int) ≠ 0 := by exact_mod_cast hn.ne'
  have h1 : 0 ≤ j % (n : Int) := Int.emod_nonneg j hne
  have h2 : 0 ≤ (j + 1) % (n : Int) := Int.emod_nonneg _ hne
  have key : ((((j % (n : Int)).toNat + 1) % n : Nat) : Int)
      = ((((j + 1) % (n : Int)).toNat : Nat) : Int) := by
    rw [Int.natCast_mod]
    push_cast
    rw [Int.toNat_of_nonneg h1, Int.toNat_of_nonneg h2, Int.emod_add_emod]
  exact_mod_cast key

lemma resolveLimit_mk (S : List T) (r : Bool) (lim cnt : Tri) (k si j : Int) :
    resolveLimit (⟨S, r, lim, cnt, k, si, j⟩ : CyclicList T)
      = resolveLimit (⟨S, r, lim, cnt, 0, 0, 0⟩ : CyclicList T) := rfl

lemma drain_eq_cycTake [Inhabited T] (S : List T) (hS : S ≠ []) (lim cnt : Tri)
    (L : Int)
    (hres : resolveLimit (⟨S, false, lim, cnt, 0, 0, 0⟩ : CyclicList T) = .val L) :
    ∀ (m fuel : Nat), m ≤ fuel → ∀ (k si j : Int), k + (m : Int) = L →
      drain (⟨S, false, lim, cnt, k, si, j⟩ : CyclicList T) fuel
        = cycTake S ((j % (S.length : Int)).toNat) m := by
  have hlen : 0 < S.length := List.length_pos.mpr hS
  have hne : S.isEmpty = false := by
    simp [List.isEmpty_iff, hS]
  intro m
  induction m with
  | zero =>
    intro fuel _ k si j hk
    cases fuel with
    | zero => rfl
    | succ f =>
      have hre : resolveLimit (⟨S, false, lim, cnt, k, si, j⟩ : CyclicList T) = .val L := by
        rw [resolveLimit_mk]; exact hres
      have hstep : step (⟨S, false, lim, cnt, k, si, j⟩ : CyclicList T)
          = (none, ⟨S, false, lim, cnt, k + 1, si, j⟩) := by
        simp only [step, hne, Bool.false_eq_true, if_false, hre]
        rw [if_pos (by omega)]
      simp only [drain, hstep]
      rfl
  | succ m ih =>
    intro fuel hfuel k si j hk
    obtain ⟨f, rfl⟩ : ∃ f, fuel = f + 1 := ⟨fuel - 1, by omega⟩
    have hre : resolveLimit (⟨S, false, lim, cnt, k, si, j⟩ : CyclicList T) = .val L := by
      rw [resolveLimit_mk]; exact hres
    have hidx : (j % (S.length : Int)).toNat < S.length := emod_toNat_lt j S.length hlen
    have hget : cyclicGet (⟨S, false, lim, cnt, k, si, j⟩ : CyclicList T) j
        = some (S.getD ((j % (S.length : Int)).toNat) default) := by
      simp only [cyclicGet, Bool.false_eq_true, if_false]
      exact get?_eq_some_getD S _ hidx
    have hstep : step (⟨S, false, lim, cnt, k, si, j⟩ : CyclicList T)
        = (some (S.getD ((j % (S.length : Int)).toNat) default),
           ⟨S, false, lim, cnt, k + 1, si, (j + 1) % (S.length : Int)⟩) := by
      simp only [step, hne, Bool.false_eq_true, if_false, hre]
      rw [if_neg (by omega)]
      simp only [hget]
    simp only [drain, hstep]
    have ihm := ih f (by omega) (k + 1) si ((j + 1) % (S.length : Int)) (by omega)
    rw [Int.emod_emod_of_dvd _ dvd_rfl] at ihm
    rw [ihm]
    simp only [cycTake]
    rw [mod_step S.length hlen j]

lemma cycTake_add [Inhabited T] (S : List T) (hlen : 0 < S.length) :
    ∀ (a i b : Nat), i < S.length →
      cycTake S i (a + b) = cycTake S i a ++ cycTake S ((i + a) % S.length) b := by
  intro a
  induction a with
  | zero =>
    intro i b hi
    simp [cycTake, Nat.mod_eq_of_lt hi]
  | succ a ih =>
    intro i b hi
    have h1 : a + 1 + b = (a + b) + 1 := by omega
    rw [h1]
    simp only [cycTake]
    rw [ih ((i + 1) % S.length) b (Nat.mod_lt _ hlen)]
    have h2 : ((i + 1) % S.length + a) % S.length = (i + (a + 1)) % S.length := by
      rw [Nat.mod_add_mod]
      congr 1
      omega
    rw [h2]
    rfl

lemma cycTake_eq_take [Inhabited T] (S : List T) :
    ∀ (m i : Nat), i + m ≤ S.length → cycTake S i m = (S.drop i).take m := by
  intro m
  induction m with
  | zero => intro i _; simp [cycTake]
  | succ m ih =>
    intro i h
    have hi : i < S.length := by omega
    simp only [cycTake]
    rw [List.drop_eq_getElem_cons hi, List.getD_eq_getElem S default hi]
    simp only [List.take_succ_cons]
    congr 1
    by_cases hcase : i + 1 < S.length
    · rw [Nat.mod_eq_of_lt hcase]
      exact ih (i + 1) (by omega)
    · have hm : m = 0 := by omega
      subst hm
      simp [cycTake]

lemma cycTake_cycle [Inhabited T] (S : List T) (i : Nat) (hi : i < S.length) :
    cycTake S i S.length = S.drop i ++ S.take i := by
  have hlen : 0 < S.length := by omega
  have h1 : S.length = (S.length - i) + i := by omega
  rw [h1, cycTake_add S hlen (S.length - i) i i hi]
  congr 1
  · rw [cycTake_eq_take S (S.length - i) i (by omega)]
    exact List.take_of_length_le (by rw [List.length_drop])
  · have h2 : (i + (S.length - i)) % S.length = 0 := by
      have : i + (S.length - i) = S.length := by omega
      rw [this, Nat.mod_self]
    rw [h2, cycTake_eq_take S i 0 (by omega), List.drop_zero]

lemma cycTake_replicate [Inhabited T] (S : List T) (hlen : 0 < S.length) :
    ∀ (c : Nat), cycTake S 0 (c * S.length) = (List.replicate c S).flatten := by
  intro c
  induction c with
  | zero => simp [cycTake]
  | succ c ih =>
    have h1 : (c + 1) * S.length = S.length + c * S.length := by ring
    rw [h1, cycTake_add S hlen S.length 0 (c * S.length) hlen]
    rw [cycTake_cycle S 0 hlen]
    simp only [List.drop_zero, List.take_zero, List.append_nil, Nat.zero_add,
      Nat.mod_self]
    rw [ih]
    simp [List.replicate_succ]

lemma length_flatten_replicate (c : Nat) (S : List T) :
    ((List.replicate c S).flatten).length = c * S.length := by
  induction c with
  | zero => simp
  | succ c ih => simp [List.replicate_succ, ih, Nat.succ_mul]; ring

lemma count_flatten_replicate [DecidableEq T] (c : Nat) (S : List T) (x : T) :
    ((List.replicate c S).flatten).count x = c * S.count x := by
  induction c with
  | zero => simp
  | succ c ih => simp [List.replicate_succ, List.count_append, ih, Nat.succ_mul]; ring

lemma cycTake_eq_map_range [Inhabited T] (S : List T) :
    ∀ (m i : Nat), i < S.length →
      cycTake S i m = (List.range m).map (fun k => S.getD ((i + k) % S.length) default) := by
  intro m
  induction m with
  | zero => intro i _; simp [cycTake]
  | succ m ih =>
    intro i hi
    have hlen : 0 < S.length := by omega
    simp only [cycTake]
    rw [List.range_succ_eq_map, List.map_cons, List.map_map]
    congr 1
    · rw [Nat.add_zero, Nat.mod_eq_of_lt hi]
    · rw [ih ((i + 1) % S.length) (Nat.mod_lt _ hlen)]
      congr 1
      funext k
      simp only [Function.comp_apply]
      congr 1
      rw [Nat.mod_add_mod]
      congr 1
      omega

lemma construct_ok_iff (values : List T) (lim : Tri) (rev : Bool) (cnt : Tri)
    (si : Option Int) (l' : CyclicList T) :
    construct values lim rev cnt si = .ok l' ↔
      ((truthy lim && truthy cnt) = false ∧ values ≠ [] ∧
        l' = ⟨values, rev, lim, cnt, 0, si.getD 0, si.getD 0⟩) := by
  unfold construct
  split
  case isTrue h =>
    simp only [reduceCtorEq, false_iff]
    intro hcon
    rw [hcon.1] at h
    exact absurd h (by simp)
  case isFalse h =>
    split
    case isTrue h2 =>
      simp only [reduceCtorEq, false_iff]
      intro hcon
      exact hcon.2.1 (List.isEmpty_iff.mp h2)
    case isFalse h2 =>
      constructor
      · intro h3
        refine ⟨by simpa using h, fun he => h2 (List.isEmpty_iff.mpr he), ?_⟩
        exact (Except.ok.inj h3).symm
      · rintro ⟨_, _, rfl⟩
        rfl

lemma copy_ok_iff (l : CyclicList T) (args : List T) (si : Option Int)
    (rev : Option Bool) (lim cnt : Option Int) (l' : CyclicList T) :
    copy l args si rev lim cnt = .ok l' ↔
      ((truthy (match lim with
                | some n => if n != 0 then .val n else l.limit
                | none => l.limit)
        && truthy (match cnt with
                   | some n => if n != 0 then .val n else l.counts
                   | none => l.counts)) = false ∧
       (if args.isEmpty then l.values else args) ≠ [] ∧
       l' = ⟨if args.isEmpty then l.values else args,
             rev.getD l.reverse,
             (match lim with
              | some n => if n != 0 then .val n else l.limit
              | none => l.limit),
             (match cnt with
              | some n => if n != 0 then .val n else l.counts
              | none => l.counts),
             0,
             (if rev.getD l.reverse then
                (l.values.length : Int) - si.getD l.startIndex - 1
              else si.getD l.startIndex),
             (if rev.getD l.reverse then
                (l.values.length : Int) - si.getD l.startIndex - 1
              else si.getD l.startIndex)⟩) := by
  unfold copy
  exact construct_ok_iff _ _ _ _ _ _

lemma walkAux_spec [Inhabited T] (R : List T) (n : Nat) (hR : R.length = n)
    (hn : 0 < n) :
    ∀ (ivs : List Int) (idx : Int),
      ∃ out, walkAux R (n : Int) ivs idx = .ok out ∧ out.length = ivs.length ∧
        ∀ k, k < ivs.length →
          out.get? k
            = R.get? (((idx + ((ivs.take (k + 1)).sum)) % ((n : Nat) : Int)).toNat) := by
  intro ivs
  induction ivs with
  | nil =>
    intro idx
    exact ⟨[], rfl, rfl, by intro k hk; simp at hk⟩
  | cons h rest ih =>
    intro idx
    obtain ⟨out, hout, hlen, hpos⟩ := ih ((idx + h) % (n : Int))
    have hidx : ((idx + h) % ((n : Nat) : Int)).toNat < R.length := by
      rw [hR]; exact emod_toNat_lt _ n hn
    have hget : R.get? ((idx + h) % ((n : Nat) : Int)).toNat
        = some (R.getD (((idx + h) % ((n : Nat) : Int)).toNat) default) :=
      get?_eq_some_getD R _ hidx
    refine ⟨R.getD (((idx + h) % ((n : Nat) : Int)).toNat) default :: out, ?_, by
      simp [hlen], ?_⟩
    · simp only [walkAux]
      rw [hget, hout]
    · intro k hk
      cases k with
      | zero =>
        simp only [List.get?_cons_zero, List.take_succ_cons, List.take_zero,
          List.sum_cons, List.sum_nil, add_zero]
        exact hget.symm
      | succ k =>
        simp only [List.get?_cons_succ, List.take_succ_cons, List.sum_cons]
        rw [hpos k (by simpa using hk)]
        congr 2
        rw [Int.emod_add_emod]
        ring_nf

/-! ## Claim theorems -/

/-- C7: construction raises `ConfigurationError` if and only if the supplied
values are empty or both `limit` and `cycleCount` are supplied with meaningful
(truthy, non-unset) values; in particular no values fails, `limit=5` together
with `counts=2` fails, and exactly one bound set succeeds. -/
theorem construct_config_errors (values : List T) (lim cnt : Tri) (rev : Bool)
    (si : Option Int) :
    (isErr (construct values lim rev cnt si) = true
      ↔ (values = [] ∨ (truthy lim = true ∧ truthy cnt = true)))
    ∧ isErr (construct ([] : List T) .unset rev .unset si) = true
    ∧ isErr (construct values (.val 5) rev (.val 2) si) = true
    ∧ (values ≠ [] → isErr (construct values (.val 5) rev .unset si) = false)
    ∧ (values ≠ [] → isErr (construct values .unset rev (.val 2) si) = false) := by
  refine ⟨?_, by simp [construct, isErr, truthy], by simp [construct, isErr, truthy], ?_, ?_⟩
  · unfold construct
    split
    case isTrue h =>
      simp only [isErr, true_iff]
      right
      simpa using h
    case isFalse h =>
      split
      case isTrue h2 =>
        simp only [isErr, true_iff]
        left
        exact List.isEmpty_iff.mp h2
      case isFalse h2 =>
        simp only [isErr, Bool.false_eq_true, false_iff]
        push_neg
        refine ⟨fun he => h2 (by simp [he]), ?_⟩
        intro hl hc
        exact h (by simp [hl, hc])
  · intro hne
    simp [construct, isErr, truthy, List.isEmpty_iff, hne]
  · intro hne
    simp [construct, isErr, truthy, List.isEmpty_iff, hne]

theorem construct_config_errors_witness :
    isErr (construct ([3, 4] : List Nat) (.val 5) false .unset none) = false
    ∧ isErr (construct ([3, 4] : List Nat) .unset false (.val 2) none) = false
    ∧ isErr (construct ([] : List Nat) .unset false .unset none) = true
    ∧ isErr (construct ([3, 4] : List Nat) (.val 5) false (.val 2) none) = true :=
  ⟨(construct_config_errors [3, 4] .unset .unset false none).2.2.2.1 (by decide),
   (construct_config_errors [3, 4] .unset .unset false none).2.2.2.2 (by decide),
   (construct_config_errors ([] : List Nat) .unset .unset false none).2.1,
   (construct_config_errors ([3, 4] : List Nat) .unset .unset false none).2.2.1⟩

/-- C6: random access is total: for every instance with non-empty values and
every integer index (negative or past the length), `__getitem__` returns
`values[(len - i - 1) mod len]` when `reverse` is set and `values[i mod len]`
otherwise, and never fails. -/
theorem cyclicGet_total (l : CyclicList T) (i : Int) (h : l.values ≠ []) :
    (cyclicGet l i).isSome = true
    ∧ cyclicGet l i
        = l.values.get?
            ((if l.reverse then
                ((l.values.length : Int) - i - 1) % (l.values.length : Int)
              else i % (l.values.length : Int)).toNat) := by
  have hlen : 0 < l.values.length := List.length_pos.mpr h
  refine ⟨?_, rfl⟩
  unfold cyclicGet
  have key : ∀ j : Int,
      (l.values.get? ((j % (l.values.length : Int)).toNat)).isSome = true := by
    intro j
    haveI : Inhabited T := ⟨l.values.get ⟨0, hlen⟩⟩
    rw [get?_eq_some_getD l.values _ (emod_toNat_lt j l.values.length hlen)]
    rfl
  by_cases hr : l.reverse <;> simp only [hr, if_true, if_false] <;> exact key _

theorem cyclicGet_total_witness :
    (cyclicGet (⟨[7, 8, 9], true, .unset, .unset, 0, 0, 0⟩ : CyclicList Nat) (-5)).isSome
        = true
    ∧ cyclicGet (⟨[7, 8, 9], true, .unset, .unset, 0, 0, 0⟩ : CyclicList Nat) (-5)
        = [7, 8, 9].get? ((if true then (((3 : Nat) : Int) - (-5) - 1) % ((3 : Nat) : Int)
            else (-5) % ((3 : Nat) : Int)).toNat) :=
  cyclicGet_total (⟨[7, 8, 9], true, .unset, .unset, 0, 0, 0⟩ : CyclicList Nat) (-5)
    (by decide)

/-- C4: whenever the effective reverse flag of a `copy` (override if given,
else inherited) is true, the stored start index of the successful copy equals
`len(self._values) - effectiveStartIndex - 1`, remapped exactly once using the
post-override reverse flag, and every field not supplied inherits from the
source. -/
theorem copy_reverse_remap (l : CyclicList T) (args : List T) (si : Option Int)
    (rev : Option Bool) (lim cnt : Option Int) (l' : CyclicList T)
    (hrev : rev.getD l.reverse = true)
    (h : copy l args si rev lim cnt = .ok l') :
    l'.startIndex = (l.values.length : Int) - si.getD l.startIndex - 1
    ∧ (args = [] → l'.values = l.values)
    ∧ l'.reverse = rev.getD l.reverse
    ∧ (si = none → l'.startIndex = (l.values.length : Int) - l.startIndex - 1)
    ∧ (lim = none → l'.limit = l.limit)
    ∧ (cnt = none → l'.counts = l.counts) := by
  rw [copy_ok_iff] at h
  obtain ⟨-, -, rfl⟩ := h
  refine ⟨by simp [hrev], ?_, rfl, ?_, ?_, ?_⟩
  · rintro rfl
    simp
  · rintro rfl
    simp [hrev]
  · rintro rfl
    rfl
  · rintro rfl
    rfl

theorem copy_reverse_remap_witness :
    Option.getD (some true) (⟨[1, 2, 3], false, .unset, .unset, 0, 1, 1⟩ :
        CyclicList Nat).reverse = true
    ∧ ((⟨[1, 2, 3], true, .unset, .unset, 0, 1, 1⟩ : CyclicList Nat).startIndex
        = ((3 : Nat) : Int) - Option.getD none (1 : Int) - 1
      ∧ (([] : List Nat) = [] →
          (⟨[1, 2, 3], true, .unset, .unset, 0, 1, 1⟩ : CyclicList Nat).values = [1, 2, 3])
      ∧ (⟨[1, 2, 3], true, .unset, .unset, 0, 1, 1⟩ : CyclicList Nat).reverse
          = Option.getD (some true) false
      ∧ ((none : Option Int) = none →
          (⟨[1, 2, 3], true, .unset, .unset, 0, 1, 1⟩ : CyclicList Nat).startIndex
            = ((3 : Nat) : Int) - 1 - 1)
      ∧ ((none : Option Int) = none →
          (⟨[1, 2, 3], true, .unset, .unset, 0, 1, 1⟩ : CyclicList Nat).limit = .unset)
      ∧ ((none : Option Int) = none →
          (⟨[1, 2, 3], true, .unset, .unset, 0, 1, 1⟩ : CyclicList Nat).counts = .unset)) :=
  ⟨rfl,
   copy_reverse_remap (⟨[1, 2, 3], false, .unset, .unset, 0, 1, 1⟩ : CyclicList Nat)
     [] none (some true) none none _ rfl rfl⟩

/-- C10: at the `copy` interface an explicitly falsy bound override
(`limit=None`, `limit=0`, `counts=None`, `counts=0`) is indistinguishable from
leaving the field unspecified: the copy keeps the source's bound, so a bound
can never be removed or set to zero through `copy` (any new bound is a nonzero
explicit integer). -/
theorem copy_falsy_bound_overrides (l : CyclicList T) (args : List T)
    (si : Option Int) (rev : Option Bool) :
    (∀ (lim cnt : Option Int) (l' : CyclicList T),
       (lim = none ∨ lim = some 0) → (cnt = none ∨ cnt = some 0) →
       copy l args si rev lim cnt = .ok l' →
       l'.limit = l.limit ∧ l'.counts = l.counts)
    ∧ (∀ (lim cnt : Option Int) (l' : CyclicList T),
       copy l args si rev lim cnt = .ok l' →
       (l'.limit = l.limit ∨ ∃ n, lim = some n ∧ n ≠ 0 ∧ l'.limit = .val n)
       ∧ (l'.counts = l.counts ∨ ∃ n, cnt = some n ∧ n ≠ 0 ∧ l'.counts = .val n)) := by
  constructor
  · rintro lim cnt l' hl hc h
    rw [copy_ok_iff] at h
    obtain ⟨-, -, rfl⟩ := h
    rcases hl with rfl | rfl <;> rcases hc with rfl | rfl <;> simp
  · rintro lim cnt l' h
    rw [copy_ok_iff] at h
    obtain ⟨-, -, rfl⟩ := h
    constructor
    · match lim with
      | none => exact Or.inl rfl
      | some n =>
        by_cases hn : n = 0
        · subst hn
          exact Or.inl (by simp)
        · exact Or.inr ⟨n, rfl, hn, by simp [hn]⟩
    · match cnt with
      | none => exact Or.inl rfl
      | some n =>
        by_cases hn : n = 0
        · subst hn
          exact Or.inl (by simp)
        · exact Or.inr ⟨n, rfl, hn, by simp [hn]⟩

theorem copy_falsy_bound_overrides_witness :
    (⟨[1, 2], false, .val 4, .unset, 0, 0, 0⟩ : CyclicList Nat).limit = .val 4
    ∧ ((⟨[1, 2], false, .val 4, .unset, 0, 0, 0⟩ : CyclicList Nat).limit = .val 4
      ∧ (⟨[1, 2], false, .val 4, .unset, 0, 0, 0⟩ : CyclicList Nat).counts = .unset) := by
  refine ⟨rfl, ?_⟩
  exact (copy_falsy_bound_overrides
      (⟨[1, 2], false, .val 4, .unset, 0, 0, 0⟩ : CyclicList Nat) [] none none).1
    (some 0) none _ (Or.inr rfl) (Or.inl rfl) rfl

/-- C8: obtaining a derived iterator via `__iter__` (or any `copy`) produces a
fresh cursor: counter 0 and current index equal to the derived instance's own
start index; the derived iterator does not depend on the source's cursor
fields, and since `step` is a pure state transformer, advancing the derived
iterator cannot mutate the original record or its backing values. -/
theorem iterate_fresh_cursor (l : CyclicList T) (c i : Int) (it : CyclicList T)
    (h : iterate l = .ok it) :
    it.counter = 0 ∧ it.currentIndex = it.startIndex
    ∧ iterate { l with counter := c, currentIndex := i } = .ok it
    ∧ (∀ (args : List T) (si : Option Int) (rev : Option Bool)
         (lim cnt : Option Int) (l' : CyclicList T),
         copy l args si rev lim cnt = .ok l' →
         l'.counter = 0 ∧ l'.currentIndex = l'.startIndex) := by
  refine ⟨?_, ?_, ?_, ?_⟩
  · rw [iterate, copy_ok_iff] at h
    obtain ⟨-, -, rfl⟩ := h
    rfl
  · rw [iterate, copy_ok_iff] at h
    obtain ⟨-, -, rfl⟩ := h
    rfl
  · have hsame : iterate { l with counter := c, currentIndex := i } = iterate l := rfl
    rw [hsame, h]
  · intro args si rev lim cnt l' hc
    rw [copy_ok_iff] at hc
    obtain ⟨-, -, rfl⟩ := hc
    exact ⟨rfl, rfl⟩

theorem iterate_fresh_cursor_witness :
    (⟨[1, 2], false, .unset, .unset, 0, 1, 1⟩ : CyclicList Nat).counter = 0
    ∧ (⟨[1, 2], false, .unset, .unset, 0, 1, 1⟩ : CyclicList Nat).currentIndex
        = (⟨[1, 2], false, .unset, .unset, 0, 1, 1⟩ : CyclicList Nat).startIndex
    ∧ iterate { (⟨[1, 2], false, .unset, .unset, 5, 1, 9⟩ : CyclicList Nat) with
          counter := 7, currentIndex := 0 }
        = .ok (⟨[1, 2], false, .unset, .unset, 0, 1, 1⟩ : CyclicList Nat)
    ∧ (∀ (args : List Nat) (si : Option Int) (rev : Option Bool)
         (lim cnt : Option Int) (l' : CyclicList Nat),
         copy (⟨[1, 2], false, .unset, .unset, 5, 1, 9⟩ : CyclicList Nat)
             args si rev lim cnt = .ok l' →
         l'.counter = 0 ∧ l'.currentIndex = l'.startIndex) :=
  iterate_fresh_cursor (⟨[1, 2], false, .unset, .unset, 5, 1, 9⟩ : CyclicList Nat)
    7 0 _ rfl

lemma findIdx_facts (p : T → Bool) : ∀ (S : List T),
    S.findIdx p ≤ S.length
    ∧ (S.findIdx p < S.length →
        ∃ x, S.get? (S.findIdx p) = some x ∧ p x = true)
    ∧ (∀ j, j < S.findIdx p → ∀ x, S.get? j = some x → p x = false)
    ∧ (S.findIdx p = S.length ↔ ∀ x ∈ S, p x = false) := by
  intro S
  induction S with
  | nil =>
    refine ⟨le_refl _, ?_, ?_, ?_⟩
    · intro h
      simp [List.findIdx_nil] at h
    · intro j hj
      simp [List.findIdx_nil] at hj
    · simp [List.findIdx_nil]
  | cons a S ih =>
    obtain ⟨ih1, ih2, ih3, ih4⟩ := ih
    by_cases hpa : p a = true
    · have hf : (a :: S).findIdx p = 0 := by simp [List.findIdx_cons, hpa]
      refine ⟨by rw [hf]; simp, ?_, ?_, ?_⟩
      · intro _
        exact ⟨a, by rw [hf]; exact List.get?_cons_zero, hpa⟩
      · intro j hj
        rw [hf] at hj
        omega
      · rw [hf]
        simp only [List.length_cons]
        constructor
        · intro h0
          omega
        · intro hall
          have := hall a (by simp)
          rw [hpa] at this
          cases this
    · have hpa' : p a = false := by simpa using hpa
      have hf : (a :: S).findIdx p = S.findIdx p + 1 := by
        simp [List.findIdx_cons, hpa']
      refine ⟨?_, ?_, ?_, ?_⟩
      · rw [hf]
        simp only [List.length_cons]
        omega
      · intro h
        rw [hf] at h ⊢
        simp only [List.length_cons] at h
        obtain ⟨x, hx, hpx⟩ := ih2 (by omega)
        exact ⟨x, by rw [List.get?_cons_succ]; exact hx, hpx⟩
      · intro j hj x hx
        rw [hf] at hj
        cases j with
        | zero =>
          rw [List.get?_cons_zero] at hx
          obtain rfl : a = x := Option.some.inj hx
          exact hpa'
        | succ j =>
          rw [List.get?_cons_succ] at hx
          exact ih3 j (by omega) x hx
      · rw [hf]
        simp only [List.length_cons, Nat.add_right_cancel_iff]
        rw [ih4]
        constructor
        · intro hall x hx
          rcases List.mem_cons.mp hx with rfl | hmem
          · exact hpa'
          · exact hall x hmem
        · intro hall x hx
          exact hall x (List.mem_cons_of_mem a hx)

/-- C9: `index(value)` returns the position of the first occurrence of the
value in the raw backing values, ignoring `reverse` and `startIndex` (and all
other configuration and cursor fields), and fails with `NotFoundError` exactly
when the value does not occur; the function is pure, so the `lru_cache`
memoization can never change the returned result. -/
theorem indexOf_first_occurrence [DecidableEq T] (l : CyclicList T) (v : T) :
    (∀ i, indexOf l v = .ok i ↔
      (l.values.get? i = some v ∧ ∀ j, j < i → l.values.get? j ≠ some v))
    ∧ (isErr (indexOf l v) = true ↔ v ∉ l.values)
    ∧ (∀ (rev : Bool) (si ctr ci : Int) (lim cnt : Tri),
        indexOf { l with reverse := rev, startIndex := si, counter := ctr,
                         currentIndex := ci, limit := lim, counts := cnt } v
          = indexOf l v) := by
  obtain ⟨hle, hwit, hmin, hall⟩ := findIdx_facts (fun x => decide (x = v)) l.values
  refine ⟨?_, ?_, ?_⟩
  · intro i
    constructor
    · intro h
      unfold indexOf at h
      split at h
      case isTrue hlt =>
        obtain rfl : l.values.findIdx (fun x => decide (x = v)) = i :=
          Except.ok.inj h
        obtain ⟨x, hx, hpx⟩ := hwit hlt
        rw [of_decide_eq_true hpx] at hx
        refine ⟨hx, ?_⟩
        intro j hj hsome
        have := hmin j hj v hsome
        simp at this
      case isFalse hlt => cases h
    · rintro ⟨hv, hminv⟩
      have hi : i < l.values.length := by
        rw [List.get?_eq_getElem?] at hv
        obtain ⟨h, -⟩ := List.getElem?_eq_some_iff.mp hv
        exact h
      have hF : l.values.findIdx (fun x => decide (x = v)) = i := by
        rcases Nat.lt_trichotomy (l.values.findIdx (fun x => decide (x = v))) i with
          hlt | heq | hgt
        · obtain ⟨x, hx, hpx⟩ := hwit (by omega)
          rw [of_decide_eq_true hpx] at hx
          exact absurd hx (hminv _ hlt)
        · exact heq
        · have := hmin i hgt v hv
          simp at this
      unfold indexOf
      rw [hF, if_pos hi]
  · constructor
    · intro h
      unfold indexOf at h
      split at h
      case isTrue hlt => cases h
      case isFalse hlt =>
        have hF : l.values.findIdx (fun x => decide (x = v)) = l.values.length := by
          omega
        intro hmem
        have := hall.mp hF v hmem
        simp at this
    · intro hmem
      unfold indexOf
      have hF : l.values.findIdx (fun x => decide (x = v)) = l.values.length := by
        apply hall.mpr
        intro x hx
        by_cases hxv : x = v
        · subst hxv
          exact absurd hx hmem
        · simp [hxv]
      rw [hF, if_neg (by omega)]
      rfl
  · intro rev si ctr ci lim cnt
    rfl

theorem indexOf_first_occurrence_witness :
    indexOf (⟨[4, 7, 7], true, .val 9, .unset, 3, 2, 2⟩ : CyclicList Nat) 7 = .ok 1
    ∧ isErr (indexOf (⟨[4, 7, 7], true, .val 9, .unset, 3, 2, 2⟩ : CyclicList Nat) 5)
        = true := by
  constructor
  · exact ((indexOf_first_occurrence
        (⟨[4, 7, 7], true, .val 9, .unset, 3, 2, 2⟩ : CyclicList Nat) 7).1 1).mpr
      (by constructor
          · rfl
          · intro j hj
            interval_cases j
            · decide)
  · exact ((indexOf_first_occurrence
        (⟨[4, 7, 7], true, .val 9, .unset, 3, 2, 2⟩ : CyclicList Nat) 5).2.1).mpr
      (by decide)

lemma emod_toNat_add (n : Nat) (hn : 0 < n) (j : Int) (k : Nat) :
    ((j + (k : Int)) % ((n : Nat) : Int)).toNat = ((j % (n : Int)).toNat + k) % n := by
  have hne : (n : Int) ≠ 0 := by exact_mod_cast hn.ne'
  have h1 : 0 ≤ j % (n : Int) := Int.emod_nonneg j hne
  have h2 : 0 ≤ (j + (k : Int)) % (n : Int) := Int.emod_nonneg _ hne
  have key : ((((j + (k : Int)) % ((n : Nat) : Int)).toNat : Nat) : Int)
      = ((((j % (n : Int)).toNat + k) % n : Nat) : Int) := by
    rw [Int.toNat_of_nonneg h2, Int.natCast_mod]
    push_cast
    rw [Int.toNat_of_nonneg h1, Int.emod_add_emod]
  exact_mod_cast key

/-- C1: a `CyclicList` built over non-empty `S` with `counts = cycles > 0`
(default reverse, start index and limit) yields exactly `cycles * len(S)`
items before exhausting, and each element occurs `cycles` times per
occurrence in `S` (exactly `cycles` times when `S` has no duplicates). -/
theorem counts_iteration_yields [Inhabited T] [DecidableEq T] (S : List T)
    (c fuel : Nat) (hS : S ≠ []) (hc : 0 < c) (hfuel : c * S.length ≤ fuel)
    (l : CyclicList T)
    (hl : construct S .unset false (.val (c : Int)) none = .ok l) :
    ∃ out, listOf l fuel = .ok out
      ∧ out.length = c * S.length
      ∧ (∀ x, out.count x = c * S.count x)
      ∧ (S.Nodup → ∀ x ∈ S, out.count x = c) := by
  have hlen : 0 < S.length := List.length_pos.mpr hS
  rw [construct_ok_iff] at hl
  obtain ⟨-, -, rfl⟩ := hl
  have hiter : iterate (⟨S, false, Tri.unset, Tri.val (c : Int), 0,
      (none : Option Int).getD 0, (none : Option Int).getD 0⟩ : CyclicList T)
      = .ok ⟨S, false, Tri.unset, Tri.val (c : Int), 0, 0, 0⟩ := by
    rw [iterate, copy_ok_iff]
    refine ⟨by simp [truthy], by simpa using hS, by simp⟩
  have hdrain : drain (⟨S, false, Tri.unset, Tri.val (c : Int), 0, 0, 0⟩ :
      CyclicList T) fuel = cycTake S 0 (c * S.length) := by
    have := drain_eq_cycTake S hS Tri.unset (Tri.val (c : Int))
      ((c : Int) * (S.length : Int)) rfl (c * S.length) fuel hfuel 0 0 0
      (by push_cast; ring)
    rw [this]
    simp
  refine ⟨(List.replicate c S).flatten, ?_, ?_, ?_, ?_⟩
  · simp only [listOf, hiter]
    rw [hdrain, cycTake_replicate S hlen c]
  · exact length_flatten_replicate c S
  · intro x
    exact count_flatten_replicate c S x
  · intro hnd x hx
    rw [count_flatten_replicate c S x, List.count_eq_one_of_mem hnd hx, mul_one]

theorem counts_iteration_yields_witness :
    ∃ out, listOf (⟨[1, 2], false, .unset, .val ((2 : Nat) : Int), 0,
        (none : Option Int).getD 0, (none : Option Int).getD 0⟩ : CyclicList Nat) 4
        = .ok out
      ∧ out.length = 2 * [1, 2].length
      ∧ (∀ x, out.count x = 2 * [1, 2].count x)
      ∧ ([1, 2].Nodup → ∀ x ∈ [1, 2], out.count x = 2) :=
  counts_iteration_yields [1, 2] 2 4 (by decide) (by decide) (by decide) _ rfl

lemma specRotation_eq_cycTake [Inhabited T] (S : List T) (hS : S ≠ [])
    (rv : Bool) (lim cnt : Tri) (ctr si ci : Int) :
    specRotation (⟨S, rv, lim, cnt, ctr, si, ci⟩ : CyclicList T)
      = cycTake S ((si % (S.length : Int)).toNat) S.length := by
  have hlen : 0 < S.length := List.length_pos.mpr hS
  unfold specRotation
  dsimp only
  rw [cycTake_eq_map_range S S.length ((si % (S.length : Int)).toNat)
    (emod_toNat_lt si S.length hlen)]
  apply List.map_congr_left
  intro k hk
  congr 1
  exact emod_toNat_add S.length hlen si k

lemma canonicalRotation_default_eq [Inhabited T] (S : List T) (hS : S ≠ [])
    (ctr si ci : Int) :
    canonicalRotation (⟨S, false, .unset, .unset, ctr, si, ci⟩ : CyclicList T)
      = .ok (cycTake S ((si % (S.length : Int)).toNat) S.length) := by
  have hlen : 0 < S.length := List.length_pos.mpr hS
  have hcopy : copy (⟨S, false, Tri.unset, Tri.unset, ctr, si, ci⟩ : CyclicList T)
      [] none none none none
      = .ok ⟨S, false, Tri.unset, Tri.unset, 0, si, si⟩ := by
    rw [copy_ok_iff]
    refine ⟨by simp [truthy], by simpa using hS, by simp⟩
  have hiter : iterate (⟨S, false, Tri.unset, Tri.unset, 0, si, si⟩ : CyclicList T)
      = .ok ⟨S, false, Tri.unset, Tri.unset, 0, si, si⟩ := by
    rw [iterate, copy_ok_iff]
    refine ⟨by simp [truthy], by simpa using hS, by simp⟩
  have hdrain : drain (⟨S, false, Tri.unset, Tri.unset, 0, si, si⟩ : CyclicList T)
      S.length = cycTake S ((si % (S.length : Int)).toNat) S.length := by
    exact drain_eq_cycTake S hS Tri.unset Tri.unset (1 * (S.length : Int)) rfl
      S.length S.length (le_refl _) 0 si si (by ring)
  simp only [canonicalRotation, hcopy, hiter, hdrain]

/-- C2 counterexample: for the instance `CyclicList(0, 1, 2, reverse=True,
limit=2)` the rotation that `custom_iter` actually materializes is `[2, 1]`
(the copy inherits the reverse flag and the limit, so the traversal is
reversed and truncated to 2 items), not the non-reversed non-limited
traversal `[0, 1, 2]` of length 3 that the claim prescribes. -/
theorem canonicalRotation_counterexample :
    canonicalRotation (⟨[0, 1, 2], true, .val 2, .unset, 0, 0, 0⟩ : CyclicList Int)
      = .ok [2, 1]
    ∧ specRotation (⟨[0, 1, 2], true, .val 2, .unset, 0, 0, 0⟩ : CyclicList Int)
      = [0, 1, 2]
    ∧ canonicalRotation (⟨[0, 1, 2], true, .val 2, .unset, 0, 0, 0⟩ : CyclicList Int)
      ≠ .ok (specRotation (⟨[0, 1, 2], true, .val 2, .unset, 0, 0, 0⟩ : CyclicList Int)) := by
  refine ⟨rfl, rfl, ?_⟩
  intro h
  have h2 : (Except.ok ([2, 1] : List Int) : Except String (List Int))
      = Except.ok ([0, 1, 2] : List Int) := h
  exact absurd (Except.ok.inj h2) (by decide)

/-- C2 amended: `custom_iter` materializes its rotation through
`copy(limit=None, counts=None)`, whose falsy overrides inherit the source's
bounds and reverse flag; only for a source with unset bounds and
`reverse=False` is the materialized rotation the specification's canonical
rotation - the non-reversed traversal of exactly `len(values)` items starting
at the source's `startIndex` (regardless of the source's cursor state). -/
theorem canonicalRotation_default_config [Inhabited T] (S : List T) (hS : S ≠ [])
    (ctr si ci : Int) :
    canonicalRotation (⟨S, false, .unset, .unset, ctr, si, ci⟩ : CyclicList T)
      = .ok (specRotation (⟨S, false, .unset, .unset, ctr, si, ci⟩ : CyclicList T))
    ∧ (specRotation (⟨S, false, .unset, .unset, ctr, si, ci⟩ : CyclicList T)).length
        = S.length := by
  constructor
  · rw [canonicalRotation_default_eq S hS ctr si ci,
      specRotation_eq_cycTake S hS false .unset .unset ctr si ci]
  · rw [specRotation_eq_cycTake S hS false .unset .unset ctr si ci]
    exact cycTake_length S S.length _

theorem canonicalRotation_default_config_witness :
    canonicalRotation (⟨[10, 20, 30], false, .unset, .unset, 9, 1, 2⟩ : CyclicList Nat)
      = .ok (specRotation (⟨[10, 20, 30], false, .unset, .unset, 9, 1, 2⟩ : CyclicList Nat))
    ∧ (specRotation (⟨[10, 20, 30], false, .unset, .unset, 9, 1, 2⟩ : CyclicList Nat)).length
        = [10, 20, 30].length :=
  canonicalRotation_default_config [10, 20, 30] (by decide) 9 1 2

/-- C5: for every non-empty `S` and interval list `[h1, ..., hn]`,
`resample(intervals=[h1, ..., hn])` on an unbounded non-reversed instance
yields exactly `n + 1` values: the first is `R[0]` for the materialized
rotation `R`, and the `(k+1)`-th is `R[(h1 + ... + hk) mod len(R)]`; in
particular over `0..9` with intervals `[1, 2, 3, 3]` the result is
`[0, 1, 3, 6, 9]`. -/
theorem custom_iter_interval_walk :
    (∀ (T : Type) (S : List T) (ivs : List Int) (ctr si ci : Int), S ≠ [] →
      ∃ R l',
        canonicalRotation (⟨S, false, .unset, .unset, ctr, si, ci⟩ : CyclicList T)
            = .ok R
        ∧ custom_iter (⟨S, false, .unset, .unset, ctr, si, ci⟩ : CyclicList T)
            (some ivs) none none none none = .ok l'
        ∧ l'.values.length = ivs.length + 1
        ∧ l'.values.get? 0 = R.get? 0
        ∧ (∀ k, k < ivs.length →
            l'.values.get? (k + 1)
              = R.get? ((((ivs.take (k + 1)).sum) % (S.length : Int)).toNat)))
    ∧ (∃ l', custom_iter (⟨List.range 10, false, .unset, .unset, 0, 0, 0⟩ :
          CyclicList Nat) (some [1, 2, 3, 3]) none none none none = .ok l'
        ∧ l'.values = [0, 1, 3, 6, 9]) := by
  constructor
  · intro T S ivs ctr si ci hS
    haveI : Inhabited T := ⟨S.head hS⟩
    have hlen : 0 < S.length := List.length_pos.mpr hS
    set R : List T := cycTake S ((si % (S.length : Int)).toNat) S.length with hRdef
    have hrot : canonicalRotation
        (⟨S, false, .unset, .unset, ctr, si, ci⟩ : CyclicList T) = .ok R :=
      canonicalRotation_default_eq S hS ctr si ci
    have hRlen : R.length = S.length := cycTake_length S S.length _
    have hR0 : R.get? 0 = some (R.getD 0 default) :=
      get?_eq_some_getD R 0 (by omega)
    obtain ⟨out, hout, houtlen, hpos⟩ :=
      walkAux_spec R S.length hRlen hlen ivs 0
    have hcopy : copy (⟨S, false, Tri.unset, Tri.unset, ctr, si, ci⟩ : CyclicList T)
        (R.getD 0 default :: out) none none none none
        = .ok ⟨R.getD 0 default :: out, false, Tri.unset, Tri.unset, 0, si, si⟩ := by
      rw [copy_ok_iff]
      refine ⟨by simp [truthy], by simp, by simp⟩
    refine ⟨R, ⟨R.getD 0 default :: out, false, Tri.unset, Tri.unset, 0, si, si⟩,
      hrot, ?_, ?_, ?_, ?_⟩
    · simp only [custom_iter, hrot, Option.isSome_some, Option.isSome_none,
        Bool.and_false, Bool.false_eq_true, if_false, hR0, hout, hcopy]
    · simp [houtlen]
    · exact (List.get?_cons_zero).trans hR0.symm
    · intro k hk
      have := hpos k hk
      rw [List.get?_cons_succ, this, zero_add]
  · exact ⟨⟨[0, 1, 3, 6, 9], false, .unset, .unset, 0, 0, 0⟩, rfl, rfl⟩

theorem custom_iter_interval_walk_witness :
    ∃ R l',
      canonicalRotation (⟨[5, 6, 7], false, .unset, .unset, 0, 0, 0⟩ : CyclicList Nat)
          = .ok R
      ∧ custom_iter (⟨[5, 6, 7], false, .unset, .unset, 0, 0, 0⟩ : CyclicList Nat)
          (some [2, 2]) none none none none = .ok l'
      ∧ l'.values.length = [2, 2].length + 1
      ∧ l'.values.get? 0 = R.get? 0
      ∧ (∀ k, k < [2, 2].length →
          l'.values.get? (k + 1)
            = R.get? (((([2, 2].take (k + 1)).sum) % (([5, 6, 7].length : Nat) : Int)).toNat)) :=
  custom_iter_interval_walk.1 Nat [5, 6, 7] [2, 2] 0 0 0 (by decide)


lemma copy_start_limit (S : List T) (hS : S ≠ []) (ctr si ci A B : Int)
    (LIM : Tri) (hLIM : (if B != 0 then Tri.val B else Tri.unset) = LIM) :
    copy (⟨S, false, Tri.unset, Tri.unset, ctr, si, ci⟩ : CyclicList T)
        [] (some A) none (some B) none
      = .ok ⟨S, false, LIM, Tri.unset, 0, A, A⟩ := by
  subst hLIM
  rw [copy_ok_iff]
  refine ⟨by simp [truthy], by simpa using hS, ?_⟩
  by_cases hB : B = 0 <;> simp [hB]

lemma iterate_counts_unset (S : List T) (hS : S ≠ []) (LIM : Tri) (ctr A ci : Int) :
    iterate (⟨S, false, LIM, Tri.unset, ctr, A, ci⟩ : CyclicList T)
      = .ok ⟨S, false, LIM, Tri.unset, 0, A, A⟩ := by
  rw [iterate, copy_ok_iff]
  refine ⟨by simp [truthy], by simpa using hS, by simp⟩

lemma slice_tail_eval [Inhabited T] (S : List T) (hS : S ≠ []) (A : Int) (LIM : Tri)
    (L : Int)
    (hres : resolveLimit (⟨S, false, LIM, Tri.unset, 0, A, A⟩ : CyclicList T) = .val L)
    (m : Nat) (hmL : (m : Int) = L) (hmpos : 0 < m) :
    construct (drain (⟨S, false, LIM, Tri.unset, 0, A, A⟩ : CyclicList T) L.toNat)
        Tri.unset false Tri.unset none
      = .ok ⟨cycTake S ((A % (S.length : Int)).toNat) m, false, Tri.unset, Tri.unset,
          0, 0, 0⟩ := by
  have htoNat : L.toNat = m := by
    rw [← hmL]
    exact Int.toNat_natCast m
  rw [htoNat]
  have hdrain := drain_eq_cycTake S hS LIM Tri.unset L hres m m (le_refl m) 0 A A
    (by omega)
  rw [hdrain, construct_ok_iff]
  refine ⟨by simp [truthy], ?_, by simp⟩
  apply List.ne_nil_of_length_pos
  rw [cycTake_length]
  exact hmpos

/-- C3 counterexample: on `CyclicList(0, 1, 2)`, the slice `[:5]` does not
produce `stop = 5` elements with `limit = 5` as the claim requires; the code
reduces the bound to `stop % len = 2` and materializes only `[0, 1]`. -/
theorem slice_stop_counterexample :
    Except.map (fun x : CyclicList Int => x.values)
        (sliceOp (⟨[0, 1, 2], false, .unset, .unset, 0, 0, 0⟩ : CyclicList Int)
          none (some 5))
      = .ok [0, 1]
    ∧ ([0, 1] : List Int).length ≠ 5 := by
  exact ⟨rfl, by decide⟩

/-- C3 amended: for a default-configured instance and `stop ≥ 0`, slicing
materializes a count of elements visited from the adjusted start
`startIndex + start`, but the count is `stop % len(values)` rather than
`stop` - except that when that residue is `0` (including `stop = 0`) the
computed falsy bound is discarded and a full cycle of `len(values)` elements
is taken; the result is a fresh default-configured instance over the
materialized values. -/
theorem sliceOp_count_semantics [Inhabited T] (S : List T) (hS : S ≠ [])
    (si s0 st ctr ci : Int) (hst : 0 ≤ st) :
    ∃ l', sliceOp (⟨S, false, .unset, .unset, ctr, si, ci⟩ : CyclicList T)
        (some s0) (some st) = .ok l'
      ∧ l'.values = cycTake S (((si + s0) % (S.length : Int)).toNat)
          (if st % (S.length : Int) = 0 then S.length
           else (st % (S.length : Int)).toNat)
      ∧ l'.values.length
          = (if st % (S.length : Int) = 0 then S.length
             else (st % (S.length : Int)).toNat)
      ∧ l'.limit = .unset ∧ l'.counts = .unset ∧ l'.reverse = false
      ∧ l'.startIndex = 0 := by
  have hlen : 0 < S.length := List.length_pos.mpr hS
  have hlenI : (0 : Int) < (S.length : Int) := by exact_mod_cast hlen
  have hA : (if (s0 != 0) = true then si + s0 else si) = si + s0 := by
    by_cases h0 : s0 = 0
    · subst h0; simp
    · simp [h0]
  by_cases hz : st % (S.length : Int) = 0
  · by_cases h0 : st = 0
    · -- `stop == 0` is falsy, so the bound defaults to `len(values)`
      subst h0
      refine ⟨⟨cycTake S (((si + s0) % (S.length : Int)).toNat) S.length, false,
        Tri.unset, Tri.unset, 0, 0, 0⟩, ?_, by rw [if_pos hz], by
          rw [if_pos hz, cycTake_length], rfl, rfl, rfl, rfl⟩
      have hB : (if ((0 : Int) != 0) = true then
          (if (0 : Int) < 0 then (S.length : Int) + 0 else 0 % (S.length : Int))
          else (S.length : Int)) = (S.length : Int) := by norm_num
      simp only [sliceOp, hA, hB,
        copy_start_limit S hS ctr si ci (si + s0) (S.length : Int)
          (Tri.val (S.length : Int))
          (by rw [if_pos (bne_iff_ne.mpr hlenI.ne')]),
        iterate_counts_unset S hS (Tri.val (S.length : Int)) 0 (si + s0) (si + s0),
        show resolveLimit (⟨S, false, Tri.val (S.length : Int), Tri.unset, 0,
          si + s0, si + s0⟩ : CyclicList T) = .val (S.length : Int) from rfl]
      exact slice_tail_eval S hS (si + s0) (Tri.val (S.length : Int))
        (S.length : Int) rfl S.length rfl hlen
    · -- positive `stop` whose residue is 0: the computed bound 0 is falsy,
      -- the unset limit is inherited and a default full cycle is drained
      refine ⟨⟨cycTake S (((si + s0) % (S.length : Int)).toNat) S.length, false,
        Tri.unset, Tri.unset, 0, 0, 0⟩, ?_, by rw [if_pos hz], by
          rw [if_pos hz, cycTake_length], rfl, rfl, rfl, rfl⟩
      have hB : (if (st != 0) = true then
          (if st < 0 then (S.length : Int) + st else st % (S.length : Int))
          else (S.length : Int)) = st % (S.length : Int) := by
        rw [if_pos (bne_iff_ne.mpr h0), if_neg (by omega)]
      simp only [sliceOp, hA, hB,
        copy_start_limit S hS ctr si ci (si + s0) (st % (S.length : Int))
          Tri.unset (by rw [hz]; simp),
        iterate_counts_unset S hS Tri.unset 0 (si + s0) (si + s0),
        show resolveLimit (⟨S, false, Tri.unset, Tri.unset, 0,
          si + s0, si + s0⟩ : CyclicList T) = .val (1 * (S.length : Int)) from rfl]
      exact slice_tail_eval S hS (si + s0) Tri.unset (1 * (S.length : Int)) rfl
        S.length (by ring) hlen
  · -- positive `stop` with nonzero residue: the bound is `stop % len`
    have h0 : st ≠ 0 := by
      intro h
      subst h
      exact hz (Int.zero_emod _)
    have hmod0 : 0 ≤ st % (S.length : Int) := Int.emod_nonneg st hlenI.ne'
    refine ⟨⟨cycTake S (((si + s0) % (S.length : Int)).toNat)
        (st % (S.length : Int)).toNat, false, Tri.unset, Tri.unset, 0, 0, 0⟩,
      ?_, by rw [if_neg hz], by rw [if_neg hz, cycTake_length], rfl, rfl, rfl, rfl⟩
    have hB : (if (st != 0) = true then
        (if st < 0 then (S.length : Int) + st else st % (S.length : Int))
        else (S.length : Int)) = st % (S.length : Int) := by
      rw [if_pos (bne_iff_ne.mpr h0), if_neg (by omega)]
    simp only [sliceOp, hA, hB,
      copy_start_limit S hS ctr si ci (si + s0) (st % (S.length : Int))
        (Tri.val (st % (S.length : Int))) (by rw [if_pos (bne_iff_ne.mpr hz)]),
      iterate_counts_unset S hS (Tri.val (st % (S.length : Int))) 0 (si + s0)
        (si + s0),
      show resolveLimit (⟨S, false, Tri.val (st % (S.length : Int)), Tri.unset, 0,
        si + s0, si + s0⟩ : CyclicList T) = .val (st % (S.length : Int)) from rfl]
    exact slice_tail_eval S hS (si + s0) (Tri.val (st % (S.length : Int)))
      (st % (S.length : Int)) rfl (st % (S.length : Int)).toNat
      (Int.toNat_of_nonneg hmod0) (by omega)

theorem sliceOp_count_semantics_witness :
    ∃ l', sliceOp (⟨[3, 4, 5], false, .unset, .unset, 0, 0, 0⟩ : CyclicList Nat)
        (some 1) (some 5) = .ok l'
      ∧ l'.values = cycTake [3, 4, 5] (((0 + 1) % (([3, 4, 5].length : Nat) : Int)).toNat)
          (if (5 : Int) % (([3, 4, 5].length : Nat) : Int) = 0 then [3, 4, 5].length
           else ((5 : Int) % (([3, 4, 5].length : Nat) : Int)).toNat)
      ∧ l'.values.length
          = (if (5 : Int) % (([3, 4, 5].length : Nat) : Int) = 0 then [3, 4, 5].length
             else ((5 : Int) % (([3, 4, 5].length : Nat) : Int)).toNat)
      ∧ l'.limit = .unset ∧ l'.counts = .unset ∧ l'.reverse = false
      ∧ l'.startIndex = 0 :=
  sliceOp_count_semantics [3, 4, 5] (by decide) 0 1 5 0 0 (by decide)

end Musica
